import Mathlib

/-!
Shallow embedding of the word-prioritization algorithm and the
input-sequencing / stop-condition loop of `script.py`.

The Prioritizer is `score_valid_word` / `get_prioritized_words`; the
PlaySequencer is the `for word in words` loop of `run_browser_automation`,
modelled over an abstract input surface.  Timing (`time.sleep`) is not
modelled; only the sequence of surface interactions and the loop's control
flow are.
-/

namespace SpellingBee

/-- Embeds `score_valid_word` (script.py, lines 43-55):
4-letter words score 1; otherwise score is the word's length, plus a +7
bonus when the word has exactly 7 distinct characters (`len(set(word)) == 7`). -/
def score_valid_word (word : String) : Nat :=
  if word.length = 4 then 1
  else
    let score := word.length
    if word.data.toFinset.card = 7 then score + 7 else score

/-- One entry of `data["words"]` as consumed by `get_prioritized_words`:
`word := none` models an entry whose `"word"` key is absent or not a string
(Python raises `KeyError` on `item["word"]`); `is_pangram := none` models an
absent `"is_pangram"` key (Python uses `item.get("is_pangram", 0)`). -/
structure Item where
  word : Option String
  is_pangram : Option Nat
deriving DecidableEq

/-- The dict `{"word": ..., "score": ..., "is_pangram": ...}` built for each
entry in the loop of `get_prioritized_words` (script.py, lines 66-72). -/
structure ScoredWord where
  word : String
  score : Nat
  is_pangram : Bool
deriving DecidableEq

/-- Builds the scored dict for one entry (script.py, lines 67-72).
`item["word"]` raises `KeyError` when the key is absent, modelled as
`Except.error`; the pangram flag is `item.get("is_pangram", 0) == 1 or
len(set(word)) == 7`. -/
def mkScored (it : Item) : Except Unit ScoredWord :=
  match it.word with
  | none => .error ()
  | some w =>
      .ok ⟨w, score_valid_word w,
           (it.is_pangram.getD 0 == 1) || (w.data.toFinset.card == 7)⟩

/-- The scoring loop over `data["words"]` (script.py, lines 66-72), appending
one scored dict per entry; the first `KeyError` propagates. -/
def scoreItems : List Item → Except Unit (List ScoredWord)
  | [] => .ok []
  | it :: rest =>
      match mkScored it with
      | .error e => .error e
      | .ok sw =>
          match scoreItems rest with
          | .error e => .error e
          | .ok ws => .ok (sw :: ws)

/-- The sort order of `scored_words.sort(key=lambda x: x["score"], reverse=True)`:
`a` comes no later than `b` when `a`'s score is at least `b`'s. -/
def scoreGE (a b : ScoredWord) : Prop := b.score ≤ a.score

instance : DecidableRel scoreGE := fun a b => Nat.decLe b.score a.score

instance : IsTotal ScoredWord scoreGE :=
  ⟨fun a b => (Nat.le_total b.score a.score).imp id id⟩

instance : IsTrans ScoredWord scoreGE :=
  ⟨fun _ _ _ h1 h2 => Nat.le_trans h2 h1⟩

/-- Embeds `scored_words.sort(key=lambda x: x["score"], reverse=True)`
(script.py, line 75).  Python's sort is stable; a stable sort's output is
uniquely determined by the key order and the input order, so the stable
`insertionSort` denotes the same function. -/
def sortScored (l : List ScoredWord) : List ScoredWord :=
  List.insertionSort scoreGE l

/-- Embeds the `for i, item in enumerate(scored_words)` search plus
`pop(i)` (script.py, lines 80-85): returns the first element satisfying `p`
together with the list with that element removed, or `none` if no element
satisfies `p`. -/
def extractFirst (p : ScoredWord → Bool) : List ScoredWord → Option (ScoredWord × List ScoredWord)
  | [] => none
  | x :: xs =>
      if p x then some (x, xs)
      else
        match extractFirst p xs with
        | none => none
        | some (w, rest) => some (w, x :: rest)

/-- Embeds the pangram-demotion step (script.py, lines 77-85): if the sorted
list is nonempty and its first element is a pangram, the first non-pangram is
popped and reinserted at index 0; otherwise the list is unchanged. -/
def demote (l : List ScoredWord) : List ScoredWord :=
  match l with
  | [] => []
  | x :: xs =>
      if x.is_pangram then
        match extractFirst (fun w => !w.is_pangram) (x :: xs) with
        | some (w, rest) => w :: rest
        | none => x :: xs
      else x :: xs

/-- Sort then demote: the whole transformation applied to the scored list
(script.py, lines 74-85). -/
def pipeline (l : List ScoredWord) : List ScoredWord :=
  demote (sortScored l)

/-- Embeds `get_prioritized_words` (script.py, lines 57-87).  The input
`none` models `not data or "words" not in data` (empty dict, falsy data, or
missing `"words"` key), which returns `[]`; `some items` models
`data["words"] = items`.  A `KeyError` from an entry propagates out of the
function. -/
def get_prioritized_words (data : Option (List Item)) : Except Unit (List String) :=
  match data with
  | none => .ok []
  | some items =>
      match scoreItems items with
      | .error e => .error e
      | .ok scored => .ok ((pipeline scored).map (fun x => x.word))

/-! ### PlaySequencer: the word loop of `run_browser_automation` -/

/-- The abstract input surface the loop drives (script.py, lines 128-160).
Each field is indexed by the round number (the position of the word being
played); `Except.error` models a thrown Playwright exception:
`typeChar` is `page.keyboard.type(char)`, `pressEnter` is
`page.keyboard.press("Enter")`, `queryRank` is
`page.query_selector("#rank-name")` / `.inner_text()` (with `.ok none` for a
missing element), and `queenBeeVisible` is
`page.get_by_text("Queen Bee").is_visible()`. -/
structure Surface where
  typeChar : Nat → Char → Except Unit Unit
  pressEnter : Nat → Except Unit Unit
  queryRank : Nat → Except Unit (Option String)
  queenBeeVisible : Nat → Except Unit Bool

/-- The outcome observables of one run of the loop: how many words were
submitted, whether the loop broke out early, and the label that triggered the
break if any. -/
structure PlayOutcome where
  submittedCount : Nat
  stoppedEarly : Bool
  reachedRank : Option String
deriving DecidableEq

/-- Typing one word character by character, then pressing Enter
(script.py, lines 131-137).  Any thrown exception propagates: there is no
`try` around these calls inside the loop. -/
def submitWord (s : Surface) (k : Nat) (w : String) : Except Unit Unit := do
  w.data.forM (fun c => s.typeChar k c)
  s.pressEnter k

/-- Python's `str.strip()`: remove leading and trailing whitespace. -/
def pyStrip (s : String) : String :=
  ⟨((s.data.dropWhile Char.isWhitespace).reverse.dropWhile Char.isWhitespace).reverse⟩

/-- The `page.get_by_text("Queen Bee").is_visible()` fallback check
(script.py, lines 153-155), reached only when the rank check did not throw
and did not match. -/
def queenBeeCheck (s : Surface) (k : Nat) : Bool × Option String :=
  match s.queenBeeVisible k with
  | .error _ => (false, none)
  | .ok true => (true, some "Queen Bee")
  | .ok false => (false, none)

/-- The stop-condition block (script.py, lines 141-157): query the rank
label; if it reads `"Genius"` after stripping, stop; otherwise check for a
visible "Queen Bee"; any exception inside the `try` skips the rest of the
block and is swallowed (`except: pass`), so a throwing rank probe also masks
the Queen-Bee check. -/
def stopCheck (s : Surface) (k : Nat) : Bool × Option String :=
  match s.queryRank k with
  | .error _ => (false, none)
  | .ok none => queenBeeCheck s k
  | .ok (some t) =>
      if pyStrip t = "Genius" then (true, some (pyStrip t))
      else queenBeeCheck s k

/-- The `for word in words` loop (script.py, lines 128-160), with `k` the
round index of the first remaining word and `count` the number of words
already submitted.  Returns the list of rounds at which the surface was
invoked for typing (the call trace) together with the outcome; a typing or
submit failure propagates immediately as `Except.error`. -/
def playAux (s : Surface) : List String → Nat → Nat → List Nat × Except Unit PlayOutcome
  | [], _, count => ([], .ok ⟨count, false, none⟩)
  | w :: rest, k, count =>
      match submitWord s k w with
      | .error e => ([k], .error e)
      | .ok _ =>
          let c := stopCheck s k
          if c.1 then ([k], .ok ⟨count + 1, true, c.2⟩)
          else
            let r := playAux s rest (k + 1) (count + 1)
            (k :: r.1, r.2)

/-- One run of the sequencer over the prioritized word list. -/
def play (s : Surface) (words : List String) : List Nat × Except Unit PlayOutcome :=
  playAux s words 0 0

/-- The spec's StopEarly trigger via the rank label: the rank probe returned
a label whose trimmed text is exactly `"Genius"`. -/
def geniusTrigger (s : Surface) (k : Nat) : Prop :=
  ∃ t, s.queryRank k = .ok (some t) ∧ pyStrip t = "Genius"

/-- The spec's StopEarly trigger via the stop phrase: the rank probe
completed without matching (no element, or a label other than `"Genius"`)
and the "Queen Bee" text is visibly present. -/
def queenBeeTrigger (s : Surface) (k : Nat) : Prop :=
  (s.queryRank k = .ok none ∨
    ∃ t, s.queryRank k = .ok (some t) ∧ pyStrip t ≠ "Genius") ∧
  s.queenBeeVisible k = .ok true

/-- The observed stop condition for round `k`. -/
def stopTrigger (s : Surface) (k : Nat) : Prop :=
  geniusTrigger s k ∨ queenBeeTrigger s k

/-! ### Helper lemmas: Prioritizer -/

theorem extractFirst_eq_none {p : ScoredWord → Bool} :
    ∀ {l : List ScoredWord}, extractFirst p l = none ↔ ∀ x ∈ l, p x = false := by
  intro l
  induction l with
  | nil => simp [extractFirst]
  | cons x xs ih =>
    cases hx : p x with
    | true => simp [extractFirst, hx]
    | false =>
      cases hef : extractFirst p xs with
      | none =>
        simp only [extractFirst, hx, Bool.false_eq_true, if_false, hef]
        constructor
        · intro _ y hy
          rcases List.mem_cons.mp hy with h1 | h2
          · subst h1; exact hx
          · exact ih.mp hef y h2
        · intro _; trivial
      | some pr =>
        obtain ⟨w, rest⟩ := pr
        simp only [extractFirst, hx, Bool.false_eq_true, if_false, hef]
        constructor
        · intro h; exact absurd h (by simp)
        · intro h
          have : extractFirst p xs = none := ih.mpr (fun y hy => h y (by simp [hy]))
          rw [this] at hef; exact absurd hef (by simp)

theorem extractFirst_some {p : ScoredWord → Bool} :
    ∀ {l : List ScoredWord} {w : ScoredWord} {rest : List ScoredWord},
      extractFirst p l = some (w, rest) →
      p w = true ∧ ∃ pre post, l = pre ++ w :: post ∧ rest = pre ++ post ∧
        ∀ x ∈ pre, p x = false := by
  intro l
  induction l with
  | nil => intro w rest h; simp [extractFirst] at h
  | cons x xs ih =>
    intro w rest h
    cases hx : p x with
    | true =>
      simp only [extractFirst, hx, if_true] at h
      obtain ⟨hw, hr⟩ := Prod.mk.injEq .. ▸ Option.some.inj h
      subst hw; subst hr
      exact ⟨hx, [], xs, rfl, rfl, by simp⟩
    | false =>
      simp only [extractFirst, hx, Bool.false_eq_true, if_false] at h
      cases hef : extractFirst p xs with
      | none => rw [hef] at h; exact absurd h (by simp)
      | some pr =>
        obtain ⟨w', rest'⟩ := pr
        rw [hef] at h
        obtain ⟨hw, hr⟩ := Prod.mk.injEq .. ▸ Option.some.inj h
        subst hw
        obtain ⟨hpw, pre, post, hl, hrest, hpre⟩ := ih hef
        subst hl; subst hrest; subst hr
        exact ⟨hpw, x :: pre, post, rfl, rfl, by
          intro y hy
          rcases List.mem_cons.mp hy with h1 | h2
          · subst h1; exact hx
          · exact hpre y h2⟩

/-- If some element of `l` is a non-pangram, `demote l` is nonempty and its
head is a non-pangram. -/
theorem demote_head_not_pangram {l : List ScoredWord}
    (h : ∃ x ∈ l, x.is_pangram = false) :
    ∃ hd t, demote l = hd :: t ∧ hd.is_pangram = false := by
  obtain ⟨x0, hx0mem, hx0⟩ := h
  cases l with
  | nil => simp at hx0mem
  | cons x xs =>
    cases hx : x.is_pangram with
    | false => exact ⟨x, xs, by simp [demote, hx], hx⟩
    | true =>
      have hne : extractFirst (fun w => !w.is_pangram) (x :: xs) ≠ none := by
        intro hnone
        have := extractFirst_eq_none.mp hnone x0 hx0mem
        simp [hx0] at this
      cases hef : extractFirst (fun w => !w.is_pangram) (x :: xs) with
      | none => exact absurd hef hne
      | some pr =>
        obtain ⟨w, rest⟩ := pr
        have hw := (extractFirst_some hef).1
        exact ⟨w, rest, by simp [demote, hx, hef], by simpa using hw⟩

/-- If every element of `l` is a pangram, `demote` leaves `l` unchanged. -/
theorem demote_all_pangram {l : List ScoredWord}
    (h : ∀ x ∈ l, x.is_pangram = true) : demote l = l := by
  cases l with
  | nil => rfl
  | cons x xs =>
    cases hx : x.is_pangram with
    | false => simp [demote, hx]
    | true =>
      have : extractFirst (fun w => !w.is_pangram) (x :: xs) = none :=
        extractFirst_eq_none.mpr (fun y hy => by simp [h y hy])
      simp [demote, hx, this]

/-- `demote` permutes its input. -/
theorem demote_perm (l : List ScoredWord) : List.Perm (demote l) l := by
  cases l with
  | nil => simp [demote]
  | cons x xs =>
    cases hx : x.is_pangram with
    | false => simp [demote, hx]
    | true =>
      cases hef : extractFirst (fun w => !w.is_pangram) (x :: xs) with
      | none => simp [demote, hx, hef]
      | some pr =>
        obtain ⟨w, rest⟩ := pr
        obtain ⟨_, pre, post, hl, hrest, _⟩ := extractFirst_some hef
        have : demote (x :: xs) = w :: rest := by simp [demote, hx, hef]
        rw [this, hl, hrest]
        exact (List.perm_middle).symm

theorem sortScored_perm (l : List ScoredWord) : List.Perm (sortScored l) l :=
  List.perm_insertionSort scoreGE l

theorem pipeline_perm (l : List ScoredWord) : List.Perm (pipeline l) l :=
  (demote_perm (sortScored l)).trans (sortScored_perm l)

theorem pipeline_length (l : List ScoredWord) : (pipeline l).length = l.length :=
  (pipeline_perm l).length_eq

/-! Stability of the sort: filtering on any property that forces mutual
`r`-comparability commutes with `insertionSort`. -/

theorem filter_orderedInsert_pos {α : Type} (r : α → α → Prop) [DecidableRel r]
    (q : α → Bool) (x : α) (hx : q x = true) (h : ∀ y, q y = true → r x y) :
    ∀ l : List α, (List.orderedInsert r x l).filter q = x :: l.filter q := by
  intro l
  induction l with
  | nil => simp [hx]
  | cons y ys ih =>
    by_cases hr : r x y
    · simp [List.orderedInsert, hr, hx]
    · have hqy : q y = false := by
        cases hq : q y with
        | false => rfl
        | true => exact absurd (h y hq) hr
      simp [List.orderedInsert, hr, hqy, ih]

theorem filter_orderedInsert_neg {α : Type} (r : α → α → Prop) [DecidableRel r]
    (q : α → Bool) (x : α) (hx : q x = false) :
    ∀ l : List α, (List.orderedInsert r x l).filter q = l.filter q := by
  intro l
  induction l with
  | nil => simp [hx]
  | cons y ys ih =>
    by_cases hr : r x y
    · simp [List.orderedInsert, hr, hx]
    · cases hqy : q y with
      | false => simp [List.orderedInsert, hr, hqy, ih]
      | true => simp [List.orderedInsert, hr, hqy, ih]

theorem filter_insertionSort {α : Type} (r : α → α → Prop) [DecidableRel r]
    (q : α → Bool) (h : ∀ a b, q a = true → q b = true → r a b) :
    ∀ l : List α, (List.insertionSort r l).filter q = l.filter q := by
  intro l
  induction l with
  | nil => rfl
  | cons x xs ih =>
    cases hx : q x with
    | false =>
      rw [List.insertionSort, filter_orderedInsert_neg r q x hx, ih,
        List.filter_cons_of_neg (by simp [hx])]
    | true =>
      rw [List.insertionSort, filter_orderedInsert_pos r q x hx (fun y hy => h x y hx hy), ih,
        List.filter_cons_of_pos hx]

/-- Stability of the embedded sort: the subsequence of words of any given
score is preserved. -/
theorem sortScored_stable (l : List ScoredWord) (n : Nat) :
    (sortScored l).filter (fun w => w.score == n) = l.filter (fun w => w.score == n) :=
  filter_insertionSort scoreGE (fun w => w.score == n)
    (fun a b ha hb => by
      have ha' : a.score = n := by simpa using ha
      have hb' : b.score = n := by simpa using hb
      simp [scoreGE, ha', hb'])
    l

theorem scoreItems_length :
    ∀ {items : List Item} {ws : List ScoredWord},
      scoreItems items = .ok ws → ws.length = items.length := by
  intro items
  induction items with
  | nil => intro ws h; simp [scoreItems] at h; simp [← h]
  | cons it rest ih =>
    intro ws h
    simp only [scoreItems] at h
    cases hm : mkScored it with
    | error e => rw [hm] at h; exact absurd h (by simp [Except.bind])
    | ok sw =>
      rw [hm] at h
      cases hr : scoreItems rest with
      | error e => rw [hr] at h; exact absurd h (by simp [Except.bind])
      | ok ws' =>
        rw [hr] at h
        simp only [Except.bind, Except.pure] at h
        have : sw :: ws' = ws := by
          have := Except.ok.inj h
          exact this
        rw [← this]
        simp [ih hr]

theorem scoreItems_isOk {items : List Item}
    (h : ∀ it ∈ items, it.word.isSome) :
    ∃ ws, scoreItems items = .ok ws := by
  induction items with
  | nil => exact ⟨[], rfl⟩
  | cons it rest ih =>
    obtain ⟨ws, hws⟩ := ih (fun x hx => h x (by simp [hx]))
    have hit : it.word.isSome := h it (by simp)
    cases hw : it.word with
    | none => rw [hw] at hit; simp at hit
    | some w =>
      refine ⟨⟨w, score_valid_word w,
        (it.is_pangram.getD 0 == 1) || (w.data.toFinset.card == 7)⟩ :: ws, ?_⟩
      simp [scoreItems, mkScored, hw, hws, Except.bind, Except.pure]

/-! ### Helper lemmas: PlaySequencer -/

theorem stopCheck_genius {s : Surface} {k : Nat} {t : String}
    (h1 : s.queryRank k = .ok (some t)) (h2 : pyStrip t = "Genius") :
    stopCheck s k = (true, some "Genius") := by
  simp [stopCheck, h1, h2]

theorem stopCheck_queenBee {s : Surface} {k : Nat}
    (h : queenBeeTrigger s k) : stopCheck s k = (true, some "Queen Bee") := by
  obtain ⟨hq, hv⟩ := h
  rcases hq with h1 | ⟨t, h1, h2⟩
  · simp [stopCheck, h1, queenBeeCheck, hv]
  · simp [stopCheck, h1, h2, queenBeeCheck, hv]

theorem stopCheck_fst_true_of_trigger {s : Surface} {k : Nat}
    (h : stopTrigger s k) : (stopCheck s k).1 = true := by
  rcases h with ⟨t, h1, h2⟩ | h
  · rw [stopCheck_genius h1 h2]
  · rw [stopCheck_queenBee h]

theorem stopTrigger_of_fst_true {s : Surface} {k : Nat}
    (h : (stopCheck s k).1 = true) : stopTrigger s k := by
  unfold stopCheck at h
  cases hq : s.queryRank k with
  | error e => rw [hq] at h; simp at h
  | ok v =>
    rw [hq] at h
    have hqb : ∀ hv : (queenBeeCheck s k).1 = true, s.queenBeeVisible k = .ok true := by
      intro hv
      unfold queenBeeCheck at hv
      cases hb : s.queenBeeVisible k with
      | error e => rw [hb] at hv; simp at hv
      | ok b =>
        rw [hb] at hv
        cases b with
        | true => rfl
        | false => simp at hv
    cases v with
    | none =>
      simp only at h
      exact Or.inr ⟨Or.inl hq, hqb h⟩
    | some t =>
      simp only at h
      by_cases hg : pyStrip t = "Genius"
      · exact Or.inl ⟨t, hq, hg⟩
      · rw [if_neg hg] at h
        exact Or.inr ⟨Or.inr ⟨t, hq, hg⟩, hqb h⟩

theorem stopCheck_fst_false_of_not_trigger {s : Surface} {k : Nat}
    (h : ¬ stopTrigger s k) : (stopCheck s k).1 = false := by
  cases hb : (stopCheck s k).1 with
  | false => rfl
  | true => exact absurd (stopTrigger_of_fst_true hb) h

/-- If round `k + i` triggers the stop condition, submissions up to it
succeed, and no earlier round triggers, then the loop submits exactly the
words at rounds `k, ..., k + i`, then breaks with a successful early-stop
outcome. -/
theorem playAux_stop (s : Surface) :
    ∀ (i : Nat) (words : List String) (k count : Nat),
      i < words.length →
      (∀ j, j ≤ i → submitWord s (k + j) (words.getD j "") = .ok ()) →
      (∀ j, j < i → (stopCheck s (k + j)).1 = false) →
      (stopCheck s (k + i)).1 = true →
      playAux s words k count =
        (List.range' k (i + 1),
         .ok ⟨count + i + 1, true, (stopCheck s (k + i)).2⟩) := by
  intro i
  induction i with
  | zero =>
    intro words k count hlen hsub hpre hstop
    cases words with
    | nil => simp at hlen
    | cons w rest =>
      have h0 : submitWord s k w = .ok () := by simpa using hsub 0 (Nat.le_refl 0)
      have hs : (stopCheck s k).1 = true := by simpa using hstop
      have hs2 : stopCheck s k = (true, (stopCheck s k).2) := by
        rw [← hs]
      simp only [playAux, h0, List.getD]
      rw [hs2]
      simp [List.range']
  | succ i ih =>
    intro words k count hlen hsub hpre hstop
    cases words with
    | nil => simp at hlen
    | cons w rest =>
      have h0 : submitWord s k w = .ok () := by simpa using hsub 0 (Nat.zero_le _)
      have hs0 : (stopCheck s k).1 = false := by simpa using hpre 0 (Nat.succ_pos i)
      have hlen2 : i < rest.length := by
        have := hlen; simp only [List.length_cons] at this; omega
      have hrec := ih rest (k + 1) (count + 1) hlen2
        (fun j hj => by
          have h := hsub (j + 1) (Nat.succ_le_succ hj)
          rw [List.getD_cons_succ] at h
          rw [show k + 1 + j = k + (j + 1) by omega]
          exact h)
        (fun j hj => by
          have h := hpre (j + 1) (Nat.succ_lt_succ hj)
          rw [show k + 1 + j = k + (j + 1) by omega]
          exact h)
        (by
          rw [show k + 1 + i = k + (i + 1) by omega]
          exact hstop)
      simp only [playAux, h0, hs0, Bool.false_eq_true, if_false]
      rw [hrec, show k + (i + 1) = k + 1 + i by omega,
        show count + (i + 1) + 1 = count + 1 + i + 1 by omega]
      rfl

/-- If every round succeeds and never triggers the stop condition, the loop
submits every word and completes with `stoppedEarly = false`. -/
theorem playAux_complete (s : Surface) :
    ∀ (words : List String) (k count : Nat),
      (∀ j, j < words.length → submitWord s (k + j) (words.getD j "") = .ok ()) →
      (∀ j, j < words.length → (stopCheck s (k + j)).1 = false) →
      playAux s words k count =
        (List.range' k words.length,
         .ok ⟨count + words.length, false, none⟩) := by
  intro words
  induction words with
  | nil => intro k count _ _; simp [playAux, List.range']
  | cons w rest ih =>
    intro k count hsub hpre
    have h0 : submitWord s k w = .ok () := by simpa using hsub 0 (Nat.succ_pos _)
    have hs0 : (stopCheck s k).1 = false := by simpa using hpre 0 (Nat.succ_pos _)
    have hrec := ih (k + 1) (count + 1)
      (fun j hj => by
        have h := hsub (j + 1) (by simpa using Nat.succ_lt_succ hj)
        rw [List.getD_cons_succ] at h
        rw [show k + 1 + j = k + (j + 1) by omega]
        exact h)
      (fun j hj => by
        have h := hpre (j + 1) (by simpa using Nat.succ_lt_succ hj)
        rw [show k + 1 + j = k + (j + 1) by omega]
        exact h)
    simp only [playAux, h0, hs0, Bool.false_eq_true, if_false, List.length_cons]
    rw [hrec, show count + (rest.length + 1) = count + 1 + rest.length by omega]
    rfl

/-- If submission fails at round `k + i` after `i` successful, non-stopping
rounds, the loop aborts with the error after invoking the surface exactly for
rounds `k, ..., k + i`. -/
theorem playAux_fail (s : Surface) :
    ∀ (i : Nat) (words : List String) (k count : Nat),
      i < words.length →
      (∀ j, j < i → submitWord s (k + j) (words.getD j "") = .ok ()) →
      (∀ j, j < i → (stopCheck s (k + j)).1 = false) →
      submitWord s (k + i) (words.getD i "") = .error () →
      playAux s words k count = (List.range' k (i + 1), .error ()) := by
  intro i
  induction i with
  | zero =>
    intro words k count hlen hsub hpre hfail
    cases words with
    | nil => simp at hlen
    | cons w rest =>
      have h0 : submitWord s k w = .error () := by simpa using hfail
      simp [playAux, h0, List.range']
  | succ i ih =>
    intro words k count hlen hsub hpre hfail
    cases words with
    | nil => simp at hlen
    | cons w rest =>
      have h0 : submitWord s k w = .ok () := by simpa using hsub 0 (Nat.succ_pos i)
      have hs0 : (stopCheck s k).1 = false := by simpa using hpre 0 (Nat.succ_pos i)
      have hlen2 : i < rest.length := by
        have := hlen; simp only [List.length_cons] at this; omega
      have hrec := ih rest (k + 1) (count + 1) hlen2
        (fun j hj => by
          have h := hsub (j + 1) (Nat.succ_lt_succ hj)
          rw [List.getD_cons_succ] at h
          rw [show k + 1 + j = k + (j + 1) by omega]
          exact h)
        (fun j hj => by
          have h := hpre (j + 1) (Nat.succ_lt_succ hj)
          rw [show k + 1 + j = k + (j + 1) by omega]
          exact h)
        (by
          have h := hfail
          rw [List.getD_cons_succ] at h
          rw [show k + 1 + i = k + (i + 1) by omega]
          exact h)
      simp only [playAux, h0, hs0, Bool.false_eq_true, if_false]
      rw [hrec]
      rfl

/-- Any entry whose word field is absent makes the whole scoring loop raise
(the Python `KeyError` from `item["word"]` propagates). -/
theorem scoreItems_error :
    ∀ {items : List Item} {it : Item}, it ∈ items → it.word = none →
      scoreItems items = .error () := by
  intro items
  induction items with
  | nil => intro it h; simp at h
  | cons x xs ih =>
    intro it hmem hw
    rcases List.mem_cons.mp hmem with h1 | h2
    · subst h1; simp [scoreItems, mkScored, hw]
    · have hx := ih h2 hw
      cases hm : mkScored x with
      | error e => cases e; simp [scoreItems, hm]
      | ok sw => simp [scoreItems, hm, hx]

theorem demote_eq_of_extract_some {l : List ScoredWord} {hd nw : ScoredWord}
    {t rest : List ScoredWord} (hl : l = hd :: t) (hp : hd.is_pangram = true)
    (hef : extractFirst (fun x => !x.is_pangram) l = some (nw, rest)) :
    demote l = nw :: rest := by
  subst hl
  simp [demote, hp, hef]

theorem demote_eq_self_of_head_not {l : List ScoredWord} {hd : ScoredWord}
    {t : List ScoredWord} (hl : l = hd :: t) (hp : hd.is_pangram = false) :
    demote l = l := by
  subst hl
  simp [demote, hp]

deriving instance DecidableEq for Except

/-- Test surface: typing always succeeds, the rank label reads " Genius "
after the third word (round index 2), no "Queen Bee" text. -/
def geniusSurface : Surface :=
  { typeChar := fun _ _ => .ok ()
    pressEnter := fun _ => .ok ()
    queryRank := fun k => if k = 2 then .ok (some " Genius ") else .ok none
    queenBeeVisible := fun _ => .ok false }

/-- Test surface: typing succeeds but both feedback probes always throw. -/
def errorProbeSurface : Surface :=
  { typeChar := fun _ _ => .ok ()
    pressEnter := fun _ => .ok ()
    queryRank := fun _ => .error ()
    queenBeeVisible := fun _ => .error () }

/-- Test surface: typing throws on the second word (round index 1). -/
def failTypeSurface : Surface :=
  { typeChar := fun k _ => if k = 1 then .error () else .ok ()
    pressEnter := fun _ => .ok ()
    queryRank := fun _ => .ok none
    queenBeeVisible := fun _ => .ok false }

/-! ### Claim theorems -/

/-- C2, counterexample: the claim states `score("lengthy") = 7`, but the code
returns 14, because "lengthy" has exactly 7 distinct characters and therefore
receives the +7 pangram bonus of `score_valid_word`. -/
theorem C2_counterexample :
    score_valid_word "lengthy" = 14 ∧ score_valid_word "lengthy" ≠ 7 := by
  decide

/-- C2, amended: `score_valid_word` returns 1 for words of exactly 4 letters;
for longer words it returns the length plus a +7 pangram bonus exactly when
the set of distinct characters has cardinality 7 (a 4-letter word can never
have 7 distinct characters, so the bonus never applies there); in particular
`score("word") = 1`, `score("abcdefg") = 14`, and `score("lengthy") = 14`
(not 7: "lengthy" has 7 distinct letters, hence the bonus). -/
theorem C2_scoring :
    (∀ w : String, w.length = 4 → score_valid_word w = 1) ∧
    (∀ w : String, 4 < w.length →
      score_valid_word w = w.length + (if w.data.toFinset.card = 7 then 7 else 0)) ∧
    (∀ w : String, w.length = 4 → w.data.toFinset.card ≠ 7) ∧
    score_valid_word "word" = 1 ∧ score_valid_word "lengthy" = 14 ∧
    score_valid_word "abcdefg" = 14 := by
  refine ⟨?_, ?_, ?_, by decide, by decide, by decide⟩
  · intro w h; simp [score_valid_word, h]
  · intro w h
    have hne : w.length ≠ 4 := by omega
    simp only [score_valid_word, hne, if_false]
    by_cases hc : w.data.toFinset.card = 7 <;> simp [hc]
  · intro w h hc
    have hle := List.toFinset_card_le w.data
    rw [hc] at hle
    have hl : w.length = w.data.length := rfl
    omega

/-- C2, witness of the amended theorem at concrete words. -/
theorem C2_scoring_witness :
    score_valid_word "word" = 1 ∧
    score_valid_word "lengthy" =
      "lengthy".length + (if "lengthy".data.toFinset.card = 7 then 7 else 0) :=
  ⟨C2_scoring.1 "word" (by decide), C2_scoring.2.1 "lengthy" (by decide)⟩

/-- C4, counterexample: the claim states that `get_prioritized_words` never
throws and drops malformed entries, but on an input whose single entry has no
word field the code raises `KeyError` (`item["word"]`), modelled as
`Except.error`. -/
theorem C4_counterexample :
    get_prioritized_words (some [⟨none, none⟩]) = .error () := rfl

/-- C4, amended: empty or absent input (falsy `data` or missing "words" key)
yields an empty result without error, and when every entry carries a word
field the call succeeds and the output length equals the input length; but an
entry lacking the word field makes the call raise (`KeyError`), rather than
being dropped. -/
theorem C4_wellformed :
    get_prioritized_words none = .ok [] ∧
    (∀ items : List Item, (∀ it ∈ items, it.word.isSome) →
      ∃ out, get_prioritized_words (some items) = .ok out ∧
        out.length = items.length) ∧
    (∀ (items : List Item) (it : Item), it ∈ items → it.word = none →
      get_prioritized_words (some items) = .error ()) := by
  refine ⟨rfl, ?_, ?_⟩
  · intro items h
    obtain ⟨ws, hws⟩ := scoreItems_isOk h
    refine ⟨(pipeline ws).map (fun x => x.word), ?_, ?_⟩
    · simp [get_prioritized_words, hws]
    · rw [List.length_map, pipeline_length, scoreItems_length hws]
  · intro items it hmem hw
    simp [get_prioritized_words, scoreItems_error hmem hw]

/-- C4, witness of the amended theorem at a concrete well-formed input. -/
theorem C4_wellformed_witness :
    ∃ out, get_prioritized_words (some [⟨some "word", none⟩]) = .ok out ∧
      out.length = 1 :=
  C4_wellformed.2.1 [⟨some "word", none⟩] (by decide)

/-- C1: whenever the scored word list contains at least one non-pangram, the
first element of the prioritized output of `get_prioritized_words` is not a
pangram; when every word is a pangram, the sorted order is returned
unchanged. -/
theorem C1_first_not_pangram (items : List Item) (ws : List ScoredWord)
    (h : scoreItems items = .ok ws) :
    ((∃ x ∈ ws, x.is_pangram = false) →
      ∃ hd t, pipeline ws = hd :: t ∧ hd.is_pangram = false ∧
        get_prioritized_words (some items) =
          .ok (hd.word :: t.map (fun x => x.word))) ∧
    ((∀ x ∈ ws, x.is_pangram = true) →
      get_prioritized_words (some items) =
        .ok ((sortScored ws).map (fun x => x.word))) := by
  constructor
  · intro hex
    have hex' : ∃ x ∈ sortScored ws, x.is_pangram = false := by
      obtain ⟨x, hx, hxp⟩ := hex
      exact ⟨x, (sortScored_perm ws).mem_iff.mpr hx, hxp⟩
    obtain ⟨hd, t, hdt, hdp⟩ := demote_head_not_pangram hex'
    have hpl : pipeline ws = hd :: t := hdt
    exact ⟨hd, t, hpl, hdp, by simp [get_prioritized_words, h, hpl]⟩
  · intro hall
    have hall' : ∀ x ∈ sortScored ws, x.is_pangram = true := fun x hx =>
      hall x ((sortScored_perm ws).mem_iff.mp hx)
    have hdem : demote (sortScored ws) = sortScored ws := demote_all_pangram hall'
    simp [get_prioritized_words, h, pipeline, hdem]

/-- C1, witness: a pangram plus one non-pangram; the non-pangram word heads
the output. -/
theorem C1_witness :
    ∃ hd t,
      pipeline [⟨"abcdefg", 14, true⟩, ⟨"bee", 3, false⟩] = hd :: t ∧
      hd.is_pangram = false ∧
      get_prioritized_words (some [⟨some "abcdefg", none⟩, ⟨some "bee", none⟩]) =
        .ok (hd.word :: t.map (fun x => x.word)) :=
  (C1_first_not_pangram [⟨some "abcdefg", none⟩, ⟨some "bee", none⟩]
    [⟨"abcdefg", 14, true⟩, ⟨"bee", 3, false⟩] (by decide)).1 (by decide)

/-- C3: `get_prioritized_words` sorts the scored words by score descending
(stably: for each score value the subsequence of words with that score is the
input subsequence, with no secondary key), as a permutation of the input;
then, if the top word is a pangram, the first non-pangram (preceded only by
pangrams) is extracted and reinserted at index 0 with all other words keeping
their relative order, and if no non-pangram exists or the top word is not a
pangram, the sorted order is kept. -/
theorem C3_stable_sort_and_demotion (items : List Item) (ws : List ScoredWord)
    (h : scoreItems items = .ok ws) :
    List.Sorted scoreGE (sortScored ws) ∧
    List.Perm (sortScored ws) ws ∧
    (∀ n : Nat, (sortScored ws).filter (fun w => w.score == n)
      = ws.filter (fun w => w.score == n)) ∧
    (∀ hd t, sortScored ws = hd :: t → hd.is_pangram = true →
      ((∃ pre nw post, sortScored ws = pre ++ nw :: post ∧
          nw.is_pangram = false ∧ (∀ x ∈ pre, x.is_pangram = true) ∧
          pipeline ws = nw :: (pre ++ post)) ∨
        ((∀ x ∈ sortScored ws, x.is_pangram = true) ∧
          pipeline ws = sortScored ws))) ∧
    (∀ hd t, sortScored ws = hd :: t → hd.is_pangram = false →
      pipeline ws = sortScored ws) ∧
    get_prioritized_words (some items) =
      .ok ((pipeline ws).map (fun x => x.word)) := by
  refine ⟨List.sorted_insertionSort scoreGE ws, sortScored_perm ws,
    sortScored_stable ws, ?_, ?_, ?_⟩
  · intro hd t hl hp
    cases hef : extractFirst (fun x => !x.is_pangram) (sortScored ws) with
    | some pr =>
      obtain ⟨nw, rest⟩ := pr
      obtain ⟨hpw, pre, post, hdec, hrest, hpre⟩ := extractFirst_some hef
      left
      refine ⟨pre, nw, post, hdec, by simpa using hpw,
        fun x hx => by simpa using hpre x hx, ?_⟩
      have hd2 : demote (sortScored ws) = nw :: rest :=
        demote_eq_of_extract_some hl hp hef
      rw [pipeline] at *
      rw [hd2, hrest]
    | none =>
      right
      have hall : ∀ x ∈ sortScored ws, x.is_pangram = true := by
        intro x hx
        have := extractFirst_eq_none.mp hef x hx
        simpa using this
      exact ⟨hall, by rw [pipeline, demote_all_pangram hall]⟩
  · intro hd t hl hp
    rw [pipeline, demote_eq_self_of_head_not hl hp]
  · simp [get_prioritized_words, h]

/-- C3, witness: the sort is a permutation; a non-pangram-headed list is left
unchanged by the demotion step. -/
theorem C3_witness :
    List.Perm (sortScored [⟨"abcdefg", 14, true⟩, ⟨"hello", 5, false⟩])
      [⟨"abcdefg", 14, true⟩, ⟨"hello", 5, false⟩] ∧
    pipeline [⟨"hello", 5, false⟩] = sortScored [⟨"hello", 5, false⟩] :=
  ⟨(C3_stable_sort_and_demotion [⟨some "abcdefg", some 0⟩, ⟨some "hello", some 0⟩]
      [⟨"abcdefg", 14, true⟩, ⟨"hello", 5, false⟩] (by decide)).2.1,
    (C3_stable_sort_and_demotion [⟨some "hello", some 0⟩] [⟨"hello", 5, false⟩]
      (by decide)).2.2.2.2.1 ⟨"hello", 5, false⟩ [] (by decide) (by decide)⟩

/-- C10: the numeric score of a scored entry never depends on the data
source's pangram flag (it is always `score_valid_word` of the word, whose +7
bonus is gated only on the 7-distinct-letter computation), whereas the
demotion step treats a word as a pangram if the flag is set OR it has 7
distinct letters; hence an entry flagged pangram with fewer than 7 distinct
letters gets `is_pangram = true` but no score bonus, and — like every
pangram-marked word — can never sit at position 0 of the output when a
non-pangram exists. -/
theorem C10_flag_gates_demotion_not_score :
    (∀ (w : String) (f1 f2 : Option Nat) (sw1 sw2 : ScoredWord),
      mkScored ⟨some w, f1⟩ = .ok sw1 → mkScored ⟨some w, f2⟩ = .ok sw2 →
      sw1.score = sw2.score ∧ sw1.score = score_valid_word w) ∧
    (∀ (w : String) (sw : ScoredWord),
      mkScored ⟨some w, some 1⟩ = .ok sw → w.data.toFinset.card ≠ 7 →
      sw.is_pangram = true ∧
        sw.score = (if w.length = 4 then 1 else w.length)) ∧
    (∀ (ws : List ScoredWord) (sw : ScoredWord) (t : List ScoredWord),
      (∃ x ∈ ws, x.is_pangram = false) → sw.is_pangram = true →
      pipeline ws ≠ sw :: t) := by
  refine ⟨?_, ?_, ?_⟩
  · intro w f1 f2 sw1 sw2 h1 h2
    simp only [mkScored] at h1 h2
    have e1 := Except.ok.inj h1
    have e2 := Except.ok.inj h2
    rw [← e1, ← e2]
    exact ⟨rfl, rfl⟩
  · intro w sw h hc
    simp only [mkScored] at h
    have e := Except.ok.inj h
    rw [← e]
    refine ⟨by simp, ?_⟩
    simp [score_valid_word, hc]
  · intro ws sw t hex hp hct
    have hex' : ∃ x ∈ sortScored ws, x.is_pangram = false := by
      obtain ⟨x, hx, hxp⟩ := hex
      exact ⟨x, (sortScored_perm ws).mem_iff.mpr hx, hxp⟩
    obtain ⟨hd, t', hdt, hdp⟩ := demote_head_not_pangram hex'
    have hpl : pipeline ws = hd :: t' := hdt
    rw [hpl] at hct
    injection hct with h1 _
    rw [h1, hp] at hdp
    exact Bool.noConfusion hdp

/-- C10, witness: an entry for "hello" flagged as pangram gets
`is_pangram = true` with the plain length score 5 (no bonus), and cannot head
the output next to a non-pangram. -/
theorem C10_witness :
    ((⟨"hello", 5, true⟩ : ScoredWord).is_pangram = true ∧
      (⟨"hello", 5, true⟩ : ScoredWord).score =
        (if "hello".length = 4 then 1 else "hello".length)) ∧
    pipeline [⟨"hello", 5, true⟩, ⟨"word", 1, false⟩] ≠
      ⟨"hello", 5, true⟩ :: [⟨"word", 1, false⟩] :=
  ⟨C10_flag_gates_demotion_not_score.2.1 "hello" ⟨"hello", 5, true⟩
      (by decide) (by decide),
    C10_flag_gates_demotion_not_score.2.2
      [⟨"hello", 5, true⟩, ⟨"word", 1, false⟩] ⟨"hello", 5, true⟩
      [⟨"word", 1, false⟩] (by decide) (by decide)⟩

/-- C9: `get_prioritized_words` is a pure function of its input — calling it
twice on the same (immutable) input yields identical output.  In this
embedding purity holds by construction; in the source, the function builds a
fresh `scored_words` list and sorts that list, never writing to `data`, so
the input is left unchanged. -/
theorem C9_pure :
    ∀ (d₁ d₂ : Option (List Item)), d₁ = d₂ →
      get_prioritized_words d₁ = get_prioritized_words d₂ := by
  intro d₁ d₂ h
  rw [h]

/-- C9, witness at a concrete input. -/
theorem C9_pure_witness :
    get_prioritized_words (some [⟨some "word", some 0⟩]) =
      get_prioritized_words (some [⟨some "word", some 0⟩]) :=
  C9_pure _ _ rfl

/-- C5: when the observed stop condition (trimmed rank label exactly
"Genius", or visible "Queen Bee" text) triggers after the word at index `i`
— the loop having reached it — the sequencer breaks out of the loop with a
successful early-stop outcome, and the call trace shows the surface was
invoked exactly for rounds `0..i`: no typing or submission happens for any
later word.  (The grace delay before breaking is timing and is not
modelled.) -/
theorem C5_stop_no_further_words (s : Surface) (words : List String) (i : Nat)
    (hi : i < words.length)
    (hsub : ∀ j, j ≤ i → submitWord s j (words.getD j "") = .ok ())
    (hpre : ∀ j, j < i → ¬ stopTrigger s j)
    (hstop : stopTrigger s i) :
    ∃ out, play s words = (List.range (i + 1), .ok out) ∧
      out.stoppedEarly = true ∧ out.submittedCount = i + 1 := by
  have h := playAux_stop s i words 0 0 hi
    (fun j hj => by simpa using hsub j hj)
    (fun j hj => by simpa using stopCheck_fst_false_of_not_trigger (hpre j hj))
    (by simpa using stopCheck_fst_true_of_trigger hstop)
  rw [show (0 : Nat) + i = i from Nat.zero_add i] at h
  exact ⟨⟨i + 1, true, (stopCheck s i).2⟩,
    by rw [play, h, List.range_eq_range'], rfl, rfl⟩

/-- C5, witness: five words, Genius reported after the third; the trace is
exactly rounds 0..2. -/
theorem C5_witness :
    ∃ out, play geniusSurface ["v", "w", "x", "y", "z"] = (List.range 3, .ok out) ∧
      out.stoppedEarly = true ∧ out.submittedCount = 3 :=
  C5_stop_no_further_words geniusSurface ["v", "w", "x", "y", "z"] 2 (by decide)
    (by decide)
    (by
      intro j hj htr
      have hc := stopCheck_fst_true_of_trigger htr
      have hq : geniusSurface.queryRank j = .ok none := by
        show (if j = 2 then Except.ok (some " Genius ") else Except.ok none) =
          Except.ok none
        rw [if_neg (by omega)]
      have hb : geniusSurface.queenBeeVisible j = .ok false := rfl
      simp [stopCheck, hq, queenBeeCheck, hb] at hc)
    (Or.inl ⟨" Genius ", rfl, by decide⟩)

/-- C6: the loop's outcome record: a Genius match after word `i` ends the run
with `submittedCount = i + 1`, `stoppedEarly = true` and `reachedRank` the
observed (trimmed) label "Genius"; a visible "Queen Bee" likewise with label
"Queen Bee"; exhausting the list without a trigger ends with every word
submitted and `stoppedEarly = false`. -/
theorem C6_outcome_record (s : Surface) (words : List String) :
    (∀ i, i < words.length →
      (∀ j, j ≤ i → submitWord s j (words.getD j "") = .ok ()) →
      (∀ j, j < i → ¬ stopTrigger s j) →
      ((geniusTrigger s i →
        play s words =
          (List.range (i + 1), .ok ⟨i + 1, true, some "Genius"⟩)) ∧
       (queenBeeTrigger s i →
        play s words =
          (List.range (i + 1), .ok ⟨i + 1, true, some "Queen Bee"⟩)))) ∧
    ((∀ j, j < words.length → submitWord s j (words.getD j "") = .ok ()) →
     (∀ j, j < words.length → ¬ stopTrigger s j) →
      play s words =
        (List.range words.length, .ok ⟨words.length, false, none⟩)) := by
  constructor
  · intro i hi hsub hpre
    have hcore : ∀ lbl, stopCheck s i = (true, some lbl) →
        play s words = (List.range (i + 1), .ok ⟨i + 1, true, some lbl⟩) := by
      intro lbl hsc
      have h := playAux_stop s i words 0 0 hi
        (fun j hj => by simpa using hsub j hj)
        (fun j hj => by simpa using stopCheck_fst_false_of_not_trigger (hpre j hj))
        (by simp only [Nat.zero_add, hsc])
      rw [show (0 : Nat) + i = i from Nat.zero_add i] at h
      rw [play, h, List.range_eq_range', hsc]
    constructor
    · rintro ⟨t, ht, htr⟩
      exact hcore "Genius" (stopCheck_genius ht htr)
    · intro hq
      exact hcore "Queen Bee" (stopCheck_queenBee hq)
  · intro hsub hpre
    have h := playAux_complete s words 0 0
      (fun j hj => by simpa using hsub j hj)
      (fun j hj => by simpa using stopCheck_fst_false_of_not_trigger (hpre j hj))
    rw [show (0 : Nat) + words.length = words.length from Nat.zero_add _] at h
    rw [play, h, List.range_eq_range']

/-- C6, witness: the spec's example — rank "Genius" after the 3rd of 5 words
gives submittedCount 3, stoppedEarly true, reachedRank "Genius". -/
theorem C6_witness :
    play geniusSurface ["a", "b", "c", "d", "e"] =
      (List.range 3, .ok ⟨3, true, some "Genius"⟩) :=
  ((C6_outcome_record geniusSurface ["a", "b", "c", "d", "e"]).1 2 (by decide)
    (by decide)
    (by
      intro j hj htr
      have hc := stopCheck_fst_true_of_trigger htr
      have hq : geniusSurface.queryRank j = .ok none := by
        show (if j = 2 then Except.ok (some " Genius ") else Except.ok none) =
          Except.ok none
        rw [if_neg (by omega)]
      have hb : geniusSurface.queenBeeVisible j = .ok false := rfl
      simp [stopCheck, hq, queenBeeCheck, hb] at hc)).1
    ⟨" Genius ", rfl, by decide⟩

/-- C7: when both feedback probes fail (throw) on every round, each failure
is swallowed by the `except: pass` and treated as no stop condition; the loop
still submits every word and ends with `stoppedEarly = false`. -/
theorem C7_probe_failures_not_fatal (s : Surface) (words : List String)
    (hq : ∀ j, s.queryRank j = .error ())
    (hb : ∀ j, s.queenBeeVisible j = .error ())
    (hsub : ∀ j, j < words.length → submitWord s j (words.getD j "") = .ok ()) :
    play s words =
      (List.range words.length, .ok ⟨words.length, false, none⟩) := by
  have h := playAux_complete s words 0 0
    (fun j hj => by simpa using hsub j hj)
    (fun j hj => by simp [stopCheck, hq j])
  rw [show (0 : Nat) + words.length = words.length from Nat.zero_add _] at h
  rw [play, h, List.range_eq_range']

/-- C7, witness: a surface whose probes always throw; both words still get
submitted. -/
theorem C7_witness :
    play errorProbeSurface ["ab", "cd"] = (List.range 2, .ok ⟨2, false, none⟩) :=
  C7_probe_failures_not_fatal errorProbeSurface ["ab", "cd"]
    (fun _ => rfl) (fun _ => rfl) (by decide)

/-- C8: a typing/submit failure at word `i` is not retried and not caught
inside the loop: the error propagates out of the sequencer and the run
aborts, the trace showing the surface was invoked exactly for rounds `0..i`
(words already submitted plus the failing one) and no later word. -/
theorem C8_submission_failure_fatal (s : Surface) (words : List String) (i : Nat)
    (hi : i < words.length)
    (hsub : ∀ j, j < i → submitWord s j (words.getD j "") = .ok ())
    (hpre : ∀ j, j < i → ¬ stopTrigger s j)
    (hfail : submitWord s i (words.getD i "") = .error ()) :
    play s words = (List.range (i + 1), .error ()) := by
  have h := playAux_fail s i words 0 0 hi
    (fun j hj => by simpa using hsub j hj)
    (fun j hj => by simpa using stopCheck_fst_false_of_not_trigger (hpre j hj))
    (by simpa using hfail)
  rw [play, h, List.range_eq_range']

/-- C8, witness: typing fails on the second word; the run errors out after
rounds 0 and 1 with the third word never attempted. -/
theorem C8_witness :
    play failTypeSurface ["ab", "cd", "ef"] = (List.range 2, .error ()) :=
  C8_submission_failure_fatal failTypeSurface ["ab", "cd", "ef"] 1 (by decide)
    (by decide)
    (by
      intro j hj htr
      rcases htr with ⟨t, ht, _⟩ | ⟨_, hv⟩
      · exact Option.noConfusion (Except.ok.inj ht)
      · exact Bool.noConfusion (Except.ok.inj hv))
    (by decide)

end SpellingBee
